import Mathlib

/-!
Shallow embedding of the Bluetooth Mesh DCD generator
(`app/btmesh/script/generator/BtMeshGenerator.py`): the entity model
(Source, SIGModel, VendorModel, Element, DCD), the identifier derivation
`to_c_macro`, the merge engine (`is_mergeable_with`, `merge_with`,
`add_chunk`), the consistency validator (`validate`) and the vendor model
aggregator (`collect_v_models`).  Numeric fields are modelled as `Nat`
(the Python values are parsed from non-negative numeric literals);
fallible code returns `Option`; the mutation of the accumulated element
list is modelled by explicit state passing.
-/

/-- A source reference: originating fragment filename plus optional group
label.  Python `Source.__eq__` compares the `(filename, group)` pair, which
is exactly structural equality here. -/
structure Source where
  filename : String
  group : Option String
deriving DecidableEq, Repr

/-- A SIG model record: `{mid, name}`. -/
structure SIGModel where
  mid : Nat
  name : String
deriving DecidableEq, Repr

/-- A vendor model record: `{mid, cid, name}`. -/
structure VendorModel where
  mid : Nat
  cid : Nat
  name : String
deriving DecidableEq, Repr

/-- `VendorModel.vmid`, from the source line `self.mid << 16 + self.cid`.
Python parses this as `mid << (16 + cid)` because `+` binds tighter than
`<<`; the parentheses here reproduce that parse. -/
def VendorModel.vmid (v : VendorModel) : Nat :=
  v.mid <<< (16 + v.cid)

/-- An element: name, location, model lists and source references. -/
structure Element where
  name : String
  location : Nat
  sig_models : List SIGModel
  vendor_models : List VendorModel
  sources : List Source
deriving DecidableEq, Repr

/-- `Element.num_s`: number of SIG models. -/
def Element.num_s (e : Element) : Nat := e.sig_models.length

/-- `Element.num_v`: number of vendor models. -/
def Element.num_v (e : Element) : Nat := e.vendor_models.length

/-- The whole-node composition data. -/
structure DCD where
  cid : Nat
  pid : Nat
  vid : Nat
  elements : List Element
deriving DecidableEq, Repr

/-- `DCD.total_models`: sum over elements of SIG-model count plus
vendor-model count. -/
def DCD.total_models (d : DCD) : Nat :=
  (d.elements.map (fun e => e.num_s + e.num_v)).sum

/-- Boolean disjointness of two lists of values, mirroring Python's
`set(xs).isdisjoint(set(ys))`. -/
def listDisjoint (xs ys : List Nat) : Bool :=
  xs.all (fun x => !ys.contains x)

/-- `Element.is_mergeable_with`: same name, disjoint SIG-model `mid` sets,
disjoint vendor-model `vmid` sets. -/
def Element.is_mergeable_with (a other : Element) : Bool :=
  if a.name != other.name then false
  else if !listDisjoint (a.sig_models.map SIGModel.mid)
      (other.sig_models.map SIGModel.mid) then false
  else if !listDisjoint (a.vendor_models.map VendorModel.vmid)
      (other.vendor_models.map VendorModel.vmid) then false
  else true

/-- `Element.merge_with`: extends the target's SIG-model, vendor-model and
source lists with the other element's, leaving the rest of the target
untouched. -/
def Element.merge_with (a other : Element) : Element :=
  { a with
    sig_models := a.sig_models ++ other.sig_models
    vendor_models := a.vendor_models ++ other.vendor_models
    sources := a.sources ++ other.sources }

/-- One step of `DCD.add_chunk`'s inner `for element in self.elements`
loop with `for ... else`: merge the incoming element into the first
mergeable accumulated element, append it when none matches. -/
def insertElement : List Element → Element → List Element
  | [], e => [e]
  | a :: rest, e =>
    if a.is_mergeable_with e then a.merge_with e :: rest
    else a :: insertElement rest e

/-- `DCD.add_chunk`: fold the chunk's elements, in chunk order, into the
accumulated element list. -/
def DCD.add_chunk (d : DCD) (chunk : List Element) : DCD :=
  { d with elements := chunk.foldl insertElement d.elements }

lemma listDisjoint_iff (xs ys : List Nat) :
    listDisjoint xs ys = true ↔ ∀ x ∈ xs, x ∉ ys := by
  simp [listDisjoint]

/-- C1: the derived comparison key `vmid` equals `mid` shifted left by
`16 + cid` — the shift amount depends on `cid` — and differs from
`(mid <<< 16) ||| cid` (exhibited at `mid = 1, cid = 1`). -/
theorem vmid_shift_amount_depends_on_cid :
    (∀ m c n, (VendorModel.mk m c n).vmid = m * 2 ^ (16 + c)) ∧
    (VendorModel.mk 1 1 "x").vmid ≠ ((1 <<< 16) ||| 1) := by
  constructor
  · intro m c n
    simp [VendorModel.vmid, Nat.shiftLeft_eq]
  · decide

/-- C2: `is_mergeable_with a b` is true iff the names agree, the SIG-model
`mid` value sets are disjoint, and the vendor-model `vmid` value sets are
disjoint. -/
theorem is_mergeable_with_iff (a b : Element) :
    a.is_mergeable_with b = true ↔
      a.name = b.name ∧
      (∀ x, x ∈ a.sig_models.map SIGModel.mid →
        x ∉ b.sig_models.map SIGModel.mid) ∧
      (∀ x, x ∈ a.vendor_models.map VendorModel.vmid →
        x ∉ b.vendor_models.map VendorModel.vmid) := by
  unfold Element.is_mergeable_with
  by_cases hn : a.name = b.name
  · simp only [hn, bne_self_eq_false, Bool.false_eq_true, if_false]
    by_cases hs : listDisjoint (a.sig_models.map SIGModel.mid)
        (b.sig_models.map SIGModel.mid) = true
    · rw [listDisjoint_iff] at hs
      simp only [listDisjoint_iff] at *
      by_cases hv : listDisjoint (a.vendor_models.map VendorModel.vmid)
          (b.vendor_models.map VendorModel.vmid) = true
      · rw [listDisjoint_iff] at hv
        simp_all [listDisjoint_iff]
      · simp only [listDisjoint_iff] at hv
        simp_all [listDisjoint_iff]
    · simp only [listDisjoint_iff] at hs
      simp_all [listDisjoint_iff]
  · simp_all [bne]

/-- C9: `merge_with` concatenates the other element's SIG-model,
vendor-model and Source lists onto the target's, in order, and leaves the
target's `name` and `location` unchanged. -/
theorem merge_with_concatenates (a b : Element) :
    (a.merge_with b).sig_models = a.sig_models ++ b.sig_models ∧
    (a.merge_with b).vendor_models = a.vendor_models ++ b.vendor_models ∧
    (a.merge_with b).sources = a.sources ++ b.sources ∧
    (a.merge_with b).name = a.name ∧
    (a.merge_with b).location = a.location := by
  refine ⟨rfl, rfl, rfl, rfl, rfl⟩

lemma insertElement_no_match (e : Element) :
    ∀ es : List Element, (∀ b ∈ es, b.is_mergeable_with e = false) →
      insertElement es e = es ++ [e] := by
  intro es
  induction es with
  | nil => intro _; rfl
  | cons a rest ih =>
    intro h
    have ha := h a (List.mem_cons_self a rest)
    simp only [insertElement, ha, Bool.false_eq_true, if_false, List.cons_append,
      List.cons.injEq, true_and]
    exact ih (fun b hb => h b (List.mem_cons_of_mem a hb))

lemma insertElement_first_match (e a : Element) (post : List Element) :
    ∀ pre : List Element, (∀ b ∈ pre, b.is_mergeable_with e = false) →
      a.is_mergeable_with e = true →
      insertElement (pre ++ a :: post) e = pre ++ a.merge_with e :: post := by
  intro pre
  induction pre with
  | nil =>
    intro _ hm
    simp [insertElement, hm]
  | cons b rest ih =>
    intro h hm
    have hb := h b (List.mem_cons_self b rest)
    simp only [List.cons_append, insertElement, hb, Bool.false_eq_true, if_false,
      List.cons.injEq, true_and]
    exact ih (fun x hx => h x (List.mem_cons_of_mem b hx)) hm

/-- C3: `add_chunk` folds the chunk in chunk order; each incoming element
is merged into the first accumulated element (in insertion order) the
mergeability predicate accepts, and is appended when none matches. -/
theorem add_chunk_fold_first_match (d : DCD) (chunk : List Element)
    (pre post : List Element) (a e : Element) :
    ((d.add_chunk chunk).elements = chunk.foldl insertElement d.elements) ∧
    ((∀ b ∈ pre, b.is_mergeable_with e = false) →
      a.is_mergeable_with e = true →
      insertElement (pre ++ a :: post) e = pre ++ a.merge_with e :: post) ∧
    ((∀ b ∈ pre, b.is_mergeable_with e = false) →
      insertElement pre e = pre ++ [e]) :=
  ⟨rfl, insertElement_first_match e a post pre, insertElement_no_match e pre⟩

/-- Witness for C3 at concrete inputs: `{name:"a"}` is not mergeable with
the incoming `{name:"b"}`, the accumulated `{name:"b"}` is, so the incoming
element is merged into it. -/
theorem add_chunk_fold_first_match_witness :
    insertElement [Element.mk "a" 0 [] [] [], Element.mk "b" 0 [] [] []]
        (Element.mk "b" 0 [] [] [])
      = [Element.mk "a" 0 [] [] [],
         (Element.mk "b" 0 [] [] []).merge_with (Element.mk "b" 0 [] [] [])] :=
  (add_chunk_fold_first_match ⟨0, 0, 0, []⟩ [] [Element.mk "a" 0 [] [] []] []
      (Element.mk "b" 0 [] [] []) (Element.mk "b" 0 [] [] [])).2.1
    (by decide) (by decide)

/-- Total model count of a plain element list. -/
def elementsTotal (es : List Element) : Nat :=
  (es.map (fun e => e.num_s + e.num_v)).sum

lemma elementsTotal_insertElement (e : Element) :
    ∀ es : List Element,
      elementsTotal (insertElement es e) = elementsTotal es + (e.num_s + e.num_v) := by
  intro es
  induction es with
  | nil => simp [insertElement, elementsTotal]
  | cons a rest ih =>
    by_cases hm : a.is_mergeable_with e = true
    · simp only [insertElement, hm, if_true, elementsTotal, List.map_cons, List.sum_cons]
      simp only [Element.merge_with, Element.num_s, Element.num_v, List.length_append]
      omega
    · rw [Bool.not_eq_true] at hm
      simp only [insertElement, hm, Bool.false_eq_true, if_false, elementsTotal,
        List.map_cons, List.sum_cons]
      have := ih
      simp only [elementsTotal] at this
      omega

lemma elementsTotal_foldl (c : List Element) :
    ∀ es : List Element,
      elementsTotal (c.foldl insertElement es) = elementsTotal es + elementsTotal c := by
  induction c with
  | nil => intro es; simp [elementsTotal]
  | cons e rest ih =>
    intro es
    simp only [List.foldl_cons]
    rw [ih (insertElement es e), elementsTotal_insertElement e es]
    simp only [elementsTotal, List.map_cons, List.sum_cons]
    omega

lemma total_models_add_chunk (d : DCD) (c : List Element) :
    (d.add_chunk c).total_models = d.total_models + elementsTotal c := by
  simp only [DCD.add_chunk, DCD.total_models]
  exact elementsTotal_foldl c d.elements

/-- No cross-chunk collisions: same-named elements drawn one from each
chunk never carry a colliding SIG-model `mid` or vendor-model `vmid`. -/
def noCrossChunkCollisions (c1 c2 : List Element) : Prop :=
  ∀ e1 ∈ c1, ∀ e2 ∈ c2, e1.name = e2.name → e1.is_mergeable_with e2 = true

instance (c1 c2 : List Element) : Decidable (noCrossChunkCollisions c1 c2) := by
  unfold noCrossChunkCollisions
  infer_instance

/-- C8: with no cross-chunk collisions, folding two chunks in either order
yields the same total model count. -/
theorem add_chunk_total_models_comm (d : DCD) (c1 c2 : List Element)
    (h : noCrossChunkCollisions c1 c2) :
    ((d.add_chunk c1).add_chunk c2).total_models
      = ((d.add_chunk c2).add_chunk c1).total_models := by
  rw [total_models_add_chunk, total_models_add_chunk,
    total_models_add_chunk, total_models_add_chunk]
  omega

/-- Witness for C8 at concrete inputs: two singleton chunks with distinct
element names (vacuously collision-free), folded in both orders. -/
theorem add_chunk_total_models_comm_witness :
    (((DCD.mk 0 0 0 []).add_chunk [Element.mk "a" 0 [⟨1, "s"⟩] [] []]).add_chunk
        [Element.mk "b" 0 [⟨2, "t"⟩] [] []]).total_models
      = (((DCD.mk 0 0 0 []).add_chunk [Element.mk "b" 0 [⟨2, "t"⟩] [] []]).add_chunk
        [Element.mk "a" 0 [⟨1, "s"⟩] [] []]).total_models :=
  add_chunk_total_models_comm (DCD.mk 0 0 0 []) [Element.mk "a" 0 [⟨1, "s"⟩] [] []]
    [Element.mk "b" 0 [⟨2, "t"⟩] [] []] (by decide)

/-- The information content of one validation error message: the Python
f-string names the duplicated group, the originating file, and both element
names. -/
structure GroupViolation where
  group : String
  filename : String
  elemName : String
  otherElemName : String
deriving DecidableEq, Repr

/-- Default element used for in-bounds indexed access. -/
def dElem : Element := ⟨"", 0, [], [], []⟩

/-- The inner two loops of `DCD.validate` for one ordered element pair:
every Source of `elem` with a present group that also appears (equal
filename and group) among `other`'s Sources yields one error message. -/
def sourceViolations (elem other : Element) : List GroupViolation :=
  elem.sources.filterMap fun s =>
    match s.group with
    | none => none
    | some g =>
      if s ∈ other.sources then some ⟨g, s.filename, elem.name, other.name⟩
      else none

/-- `DCD.validate`'s `validation_error_list`: all messages collected over
all index pairs `i < j`, in loop order. -/
def DCD.validationErrors (d : DCD) : List GroupViolation :=
  (List.range d.elements.length).flatMap fun i =>
    (List.range' (i + 1) (d.elements.length - (i + 1))).flatMap fun j =>
      sourceViolations (d.elements.getD i dElem) (d.elements.getD j dElem)

/-- `DCD.validate`: terminates with a failure carrying every collected
message when the error list is non-empty, returns normally otherwise. -/
def DCD.validate (d : DCD) : Except (List GroupViolation) Unit :=
  if d.validationErrors.isEmpty then Except.ok () else Except.error d.validationErrors

/-- An unordered pair of distinct elements such that a Source with a
present group on the first also appears on the second. -/
def hasAmbiguousGroup (es : List Element) : Prop :=
  ∃ i j, i < es.length ∧ j < es.length ∧ i ≠ j ∧
    ∃ s ∈ (es.getD i dElem).sources, s.group ≠ none ∧ s ∈ (es.getD j dElem).sources

lemma mem_sourceViolations {v : GroupViolation} {e o : Element} :
    v ∈ sourceViolations e o ↔
      ∃ s ∈ e.sources, s.group = some v.group ∧ s.filename = v.filename ∧
        s ∈ o.sources ∧ v.elemName = e.name ∧ v.otherElemName = o.name := by
  simp only [sourceViolations, List.mem_filterMap]
  constructor
  · rintro ⟨s, hs, hf⟩
    refine ⟨s, hs, ?_⟩
    cases hg : s.group with
    | none =>
      rw [hg] at hf
      exact absurd hf (by simp)
    | some g =>
      rw [hg] at hf
      dsimp only at hf
      by_cases hmem : s ∈ o.sources
      · rw [if_pos hmem] at hf
        cases hf
        exact ⟨rfl, rfl, hmem, rfl, rfl⟩
      · rw [if_neg hmem] at hf
        exact absurd hf (by simp)
  · rintro ⟨s, hs, hg, hf, hmem, he, ho⟩
    refine ⟨s, hs, ?_⟩
    rw [hg]
    dsimp only
    rw [if_pos hmem, hf, ← he, ← ho]

lemma mem_validationErrors {d : DCD} {v : GroupViolation} :
    v ∈ d.validationErrors ↔
      ∃ i j, i < j ∧ j < d.elements.length ∧
        v ∈ sourceViolations (d.elements.getD i dElem) (d.elements.getD j dElem) := by
  simp only [DCD.validationErrors, List.mem_flatMap, List.mem_range, List.mem_range'_1]
  constructor
  · rintro ⟨i, hi, j, ⟨hij, hj⟩, hv⟩
    exact ⟨i, j, by omega, by omega, hv⟩
  · rintro ⟨i, j, hij, hj, hv⟩
    exact ⟨i, by omega, j, ⟨by omega, by omega⟩, hv⟩

lemma validationErrors_ne_nil_iff {d : DCD} :
    d.validationErrors ≠ [] ↔ hasAmbiguousGroup d.elements := by
  constructor
  · intro h
    obtain ⟨v, hv⟩ := List.exists_mem_of_ne_nil _ h
    obtain ⟨i, j, hij, hj, hsv⟩ := mem_validationErrors.mp hv
    obtain ⟨s, hs, hg, _, hmem, _, _⟩ := mem_sourceViolations.mp hsv
    exact ⟨i, j, by omega, hj, by omega, s, hs, by simp [hg], hmem⟩
  · rintro ⟨i, j, hi, hj, hij, s, hs, hg, hmem⟩
    cases hgv : s.group with
    | none => exact absurd hgv hg
    | some g =>
      intro hnil
      rcases Nat.lt_or_ge i j with hlt | hge
      · have : GroupViolation.mk g s.filename (d.elements.getD i dElem).name
            (d.elements.getD j dElem).name ∈ d.validationErrors :=
          mem_validationErrors.mpr ⟨i, j, hlt, hj,
            mem_sourceViolations.mpr ⟨s, hs, hgv, rfl, hmem, rfl, rfl⟩⟩
        rw [hnil] at this
        exact absurd this (List.not_mem_nil _)
      · have hjlt : j < i := by omega
        have : GroupViolation.mk g s.filename (d.elements.getD j dElem).name
            (d.elements.getD i dElem).name ∈ d.validationErrors :=
          mem_validationErrors.mpr ⟨j, i, hjlt, hi,
            mem_sourceViolations.mpr ⟨s, hmem, hgv, rfl, hs, rfl, rfl⟩⟩
        rw [hnil] at this
        exact absurd this (List.not_mem_nil _)

/-- C4: validation fails (with every collected message) iff some unordered
pair of distinct elements shares a Source with a present group; the error
report is complete over all pairs; each message names the group, the file,
and both element names; with no violation, validation returns normally. -/
theorem validate_ambiguous_group (d : DCD) :
    (d.validate = Except.ok () ↔ ¬ hasAmbiguousGroup d.elements) ∧
    (d.validate = Except.error d.validationErrors ↔ hasAmbiguousGroup d.elements) ∧
    (∀ i j, i < j → j < d.elements.length →
      ∀ s ∈ (d.elements.getD i dElem).sources, ∀ g, s.group = some g →
        s ∈ (d.elements.getD j dElem).sources →
        GroupViolation.mk g s.filename (d.elements.getD i dElem).name
          (d.elements.getD j dElem).name ∈ d.validationErrors) ∧
    (∀ v ∈ d.validationErrors, ∃ i j, i < j ∧ j < d.elements.length ∧
      ∃ s ∈ (d.elements.getD i dElem).sources,
        s.group = some v.group ∧ s.filename = v.filename ∧
        s ∈ (d.elements.getD j dElem).sources ∧
        v.elemName = (d.elements.getD i dElem).name ∧
        v.otherElemName = (d.elements.getD j dElem).name) := by
  refine ⟨?_, ?_, ?_, ?_⟩
  · rw [← validationErrors_ne_nil_iff, not_not]
    unfold DCD.validate
    constructor
    · intro h
      by_cases he : d.validationErrors.isEmpty
      · exact List.isEmpty_iff.mp he
      · rw [if_neg he] at h; exact absurd h (by simp)
    · intro h
      rw [if_pos (List.isEmpty_iff.mpr h)]
  · rw [← validationErrors_ne_nil_iff]
    unfold DCD.validate
    constructor
    · intro h he
      rw [if_pos (List.isEmpty_iff.mpr he)] at h
      exact absurd h (by simp)
    · intro h
      rw [if_neg (by simpa [List.isEmpty_iff] using h)]
  · intro i j hij hj s hs g hg hmem
    exact mem_validationErrors.mpr ⟨i, j, hij, hj,
      mem_sourceViolations.mpr ⟨s, hs, hg, rfl, hmem, rfl, rfl⟩⟩
  · intro v hv
    obtain ⟨i, j, hij, hj, hsv⟩ := mem_validationErrors.mp hv
    obtain ⟨s, hs, hg, hf, hmem, he, ho⟩ := mem_sourceViolations.mp hsv
    exact ⟨i, j, hij, hj, s, hs, hg, hf, hmem, he, ho⟩

/-- Witness for C4 at a concrete input: two elements `e1`, `e2`, each
holding the Source `{filename:"f", group:"g"}`; the violation naming both
elements and the file/group pair is collected. -/
theorem validate_ambiguous_group_witness :
    GroupViolation.mk "g" "f" "e1" "e2" ∈
      (DCD.mk 0 0 0 [Element.mk "e1" 0 [] [] [Source.mk "f" (some "g")],
        Element.mk "e2" 0 [] [] [Source.mk "f" (some "g")]]).validationErrors :=
  (validate_ambiguous_group (DCD.mk 0 0 0
      [Element.mk "e1" 0 [] [] [Source.mk "f" (some "g")],
       Element.mk "e2" 0 [] [] [Source.mk "f" (some "g")]])).2.2.1
    0 1 (by decide) (by decide) (Source.mk "f" (some "g")) (by decide) "g"
    (by decide) (by decide)

/-- One step of `DCD.collect_v_models`'s inner loop: the candidate is
skipped when some already-accumulated entry shares its `name` or its `mid`,
appended otherwise. -/
def collectStep (acc : List VendorModel) (me : VendorModel) : List VendorModel :=
  if acc.any (fun m => me.name == m.name || me.mid == m.mid) then acc
  else acc ++ [me]

/-- `DCD.collect_v_models`: elements in order, vendor models within each
element in order, accumulated through `collectStep`. -/
def DCD.collect_v_models (d : DCD) : List VendorModel :=
  d.elements.foldl (fun acc e => e.vendor_models.foldl collectStep acc) []

/-- C5 counterexample: the aggregator dedups on raw `mid`, not on `vmid`.
The two vendor models `{mid:1, cid:0, name:"a"}` and `{mid:1, cid:1,
name:"b"}` share neither `name` nor `vmid`, yet the second is dropped
because the raw `mid` values collide. -/
theorem collect_v_models_vmid_counterexample :
    (VendorModel.mk 1 1 "b").name ≠ (VendorModel.mk 1 0 "a").name ∧
    (VendorModel.mk 1 1 "b").vmid ≠ (VendorModel.mk 1 0 "a").vmid ∧
    (DCD.mk 0 0 0 [Element.mk "e" 0 [] [VendorModel.mk 1 0 "a"] [],
        Element.mk "f" 0 [] [VendorModel.mk 1 1 "b"] []]).collect_v_models
      = [VendorModel.mk 1 0 "a"] := by
  refine ⟨by decide, by decide, by decide⟩

/-- C5 (amended): the aggregator appends a candidate iff no accumulated
entry shares its `name` or its raw `mid` (not `vmid`); collisions are
dropped silently, and the whole aggregate is the fold over elements in
order and vendor models within each element in order. -/
theorem collect_v_models_dedup_by_name_or_mid
    (acc : List VendorModel) (me : VendorModel) (d : DCD) :
    (collectStep acc me = acc ++ [me] ↔
      ∀ m ∈ acc, me.name ≠ m.name ∧ me.mid ≠ m.mid) ∧
    ((∃ m ∈ acc, me.name = m.name ∨ me.mid = m.mid) → collectStep acc me = acc) ∧
    d.collect_v_models
      = d.elements.foldl (fun a e => e.vendor_models.foldl collectStep a) [] := by
  refine ⟨?_, ?_, rfl⟩
  · unfold collectStep
    by_cases h : acc.any (fun m => me.name == m.name || me.mid == m.mid) = true
    · rw [if_pos h]
      simp only [List.any_eq_true, Bool.or_eq_true, beq_iff_eq] at h
      obtain ⟨m, hm, hor⟩ := h
      constructor
      · intro habs
        have := congrArg List.length habs
        simp at this
      · intro hall
        obtain ⟨h1, h2⟩ := hall m hm
        rcases hor with h | h
        · exact absurd h h1
        · exact absurd h h2
    · rw [if_neg h]
      simp only [List.any_eq_true, Bool.or_eq_true, beq_iff_eq, not_exists] at h
      push_neg at h
      constructor
      · intro _ m hm
        exact h m hm
      · intro _
        rfl
  · intro hex
    unfold collectStep
    rw [if_pos]
    simp only [List.any_eq_true, Bool.or_eq_true, beq_iff_eq]
    exact hex

/-- Witness for C5's amended theorem at a concrete input: a candidate
sharing only the `name` of an accumulated entry is dropped. -/
theorem collect_v_models_dedup_witness :
    collectStep [VendorModel.mk 1 0 "a"] (VendorModel.mk 2 0 "a")
      = [VendorModel.mk 1 0 "a"] :=
  (collect_v_models_dedup_by_name_or_mid [VendorModel.mk 1 0 "a"]
      (VendorModel.mk 2 0 "a") (DCD.mk 0 0 0 [])).2.1
    ⟨VendorModel.mk 1 0 "a", by decide, by decide⟩

/-- One character of Python `re.sub("\\W", "_", name)`: word characters
(letters, digits, underscore) are kept, everything else becomes `_`. -/
def replChar (c : Char) : Char :=
  if c.isAlpha || c.isDigit || c = '_' then c else '_'

/-- `to_c_macro` on the input's character list: substitute non-word
characters, then index the FIRST character of the substituted string
(failing on empty input exactly as `macro[0]` does), append `_` when that
character is a digit, and upper-case the whole result. -/
def toCMacroL (cs : List Char) : Option (List Char) :=
  match cs.map replChar with
  | [] => none
  | c :: rest =>
    some (((c :: rest) ++ if c.isDigit then ['_'] else []).map Char.toUpper)

/-- `to_c_macro` on strings. -/
def toCMacro (s : String) : Option String :=
  Option.map (fun cs => String.mk cs) (toCMacroL s.data)

lemma replChar_isDigit (c : Char) : (replChar c).isDigit = c.isDigit := by
  unfold replChar
  by_cases h : c.isAlpha || c.isDigit || c = '_'
  · rw [if_pos h]
  · rw [if_neg h]
    simp only [Bool.or_eq_true, not_or, Bool.not_eq_true] at h
    rw [h.1.2]
    decide

/-- C6: on every non-empty input, `to_c_macro` replaces each character
that is not a letter, digit or underscore with `_`, appends (not prepends)
one `_` exactly when the original input begins with a digit, and
upper-cases the result; in particular on `"ab-cd"` and `"3abc"`. -/
theorem toCMacro_replaces_appends_uppercases :
    (∀ s : String, s ≠ "" →
      toCMacro s = some (String.mk ((s.data.map replChar
        ++ if (s.data.headD ' ').isDigit then ['_'] else []).map Char.toUpper))) ∧
    toCMacro "ab-cd" = some "AB_CD" ∧
    toCMacro "3abc" = some "3ABC_" := by
  refine ⟨?_, by decide, by decide⟩
  intro s hs
  obtain ⟨cs⟩ := s
  have hne : cs ≠ [] := by
    intro h
    apply hs
    rw [h]
  cases cs with
  | nil => exact absurd rfl hne
  | cons c rest =>
    show Option.map _ (toCMacroL (c :: rest)) = _
    unfold toCMacroL
    simp only [List.map_cons]
    rw [List.headD_cons, replChar_isDigit]
    rfl

/-- Witness for C6 at the concrete input `"x"`. -/
theorem toCMacro_replaces_appends_uppercases_witness :
    toCMacro "x" = some (String.mk ((("x".data.map replChar)
      ++ if ("x".data.headD ' ').isDigit then ['_'] else []).map Char.toUpper)) :=
  toCMacro_replaces_appends_uppercases.1 "x" (by decide)

/-- C10: `to_c_macro` yields a result on every non-empty input but fails
on the empty string, whose substituted form has no first character to
test. -/
theorem toCMacro_fails_only_on_empty :
    toCMacro "" = none ∧
    ∀ s : String, s ≠ "" → (toCMacro s).isSome = true := by
  refine ⟨rfl, ?_⟩
  intro s hs
  obtain ⟨cs⟩ := s
  have hne : cs ≠ [] := by
    intro h
    apply hs
    rw [h]
  cases cs with
  | nil => exact absurd rfl hne
  | cons c rest =>
    show (Option.map _ (toCMacroL (c :: rest))).isSome = true
    unfold toCMacroL
    simp only [List.map_cons]
    rfl

/-- Witness for C10 at the concrete input `"a"`. -/
theorem toCMacro_fails_only_on_empty_witness :
    (toCMacro "a").isSome = true :=
  toCMacro_fails_only_on_empty.2 "a" (by decide)

/-- A logged intra-element vendor-model duplicate: the offending element
name together with the colliding key. -/
inductive VendIssue where
  | dupName (elemName modelName : String)
  | dupMid (elemName : String) (mid : Nat)
deriving DecidableEq, Repr

/-- The inner `while` of `check_vendor_models`: scan the models after `m`
for one sharing `m`'s name (checked first) or `m`'s `mid`. -/
def scanFrom (elemName : String) (m : VendorModel) :
    List VendorModel → Option VendIssue
  | [] => none
  | n :: rest =>
    if m.name == n.name then some (VendIssue.dupName elemName m.name)
    else if m.mid == n.mid then some (VendIssue.dupMid elemName m.mid)
    else scanFrom elemName m rest

/-- The outer `for` of `check_vendor_models`: the first logged duplicate,
if any (the Python function returns as soon as one is found). -/
def findDupIssue (elemName : String) : List VendorModel → Option VendIssue
  | [] => none
  | m :: rest =>
    match scanFrom elemName m rest with
    | some iss => some iss
    | none => findDupIssue elemName rest

/-- `Element.check_vendor_models`: the logged issue (if any) together with
the returned list, which is always the full input list. -/
def check_vendor_models (elemName : String) (vms : List VendorModel) :
    Option VendIssue × List VendorModel :=
  (findDupIssue elemName vms, vms)

/-- Element construction from a record: the vendor-model list is run
through `check_vendor_models` before any merge happens; the pair carries
the construction-time log next to the constructed element. -/
def mkElement (name : String) (location : Nat) (sig_models : List SIGModel)
    (vendor_models : List VendorModel) (sources : List Source) :
    Option VendIssue × Element :=
  ((check_vendor_models name vendor_models).1,
   ⟨name, location, sig_models, (check_vendor_models name vendor_models).2, sources⟩)

lemma scanFrom_isSome (en : String) (m : VendorModel) :
    ∀ rest : List VendorModel,
      (scanFrom en m rest).isSome = true ↔
        ∃ n ∈ rest, m.name = n.name ∨ m.mid = n.mid := by
  intro rest
  induction rest with
  | nil => simp [scanFrom]
  | cons n rest ih =>
    by_cases h1 : m.name = n.name
    · simp [scanFrom, h1]
    · by_cases h2 : m.mid = n.mid
      · simp [scanFrom, h1, h2]
      · have hb1 : (m.name == n.name) = false := by simp [h1]
        have hb2 : (m.mid == n.mid) = false := by simp [h2]
        simp only [scanFrom, hb1, Bool.false_eq_true, if_false, hb2, ih,
          List.mem_cons]
        constructor
        · rintro ⟨x, hx, hor⟩
          exact ⟨x, Or.inr hx, hor⟩
        · rintro ⟨x, hx, hor⟩
          rcases hx with rfl | hx
          · rcases hor with h | h
            · exact absurd h h1
            · exact absurd h h2
          · exact ⟨x, hx, hor⟩

lemma findDupIssue_isSome (en : String) :
    ∀ vms : List VendorModel,
      (findDupIssue en vms).isSome = true ↔
        ∃ pre m rest, vms = pre ++ m :: rest ∧
          ∃ n ∈ rest, m.name = n.name ∨ m.mid = n.mid := by
  intro vms
  induction vms with
  | nil =>
    simp only [findDupIssue, Option.isSome_none, Bool.false_eq_true, false_iff]
    rintro ⟨pre, m, rest, habs, -⟩
    exact absurd (List.append_eq_nil.mp habs.symm).2 (List.cons_ne_nil m rest)
  | cons m rest ih =>
    constructor
    · intro h
      unfold findDupIssue at h
      cases hscan : scanFrom en m rest with
      | some iss =>
        obtain ⟨n, hn, hor⟩ := (scanFrom_isSome en m rest).mp (by rw [hscan]; rfl)
        exact ⟨[], m, rest, rfl, n, hn, hor⟩
      | none =>
        rw [hscan] at h
        obtain ⟨pre, m', rest', heq, hdup⟩ := ih.mp h
        exact ⟨m :: pre, m', rest', by rw [heq]; rfl, hdup⟩
    · rintro ⟨pre, m', rest', heq, n, hn, hor⟩
      unfold findDupIssue
      cases hscan : scanFrom en m rest with
      | some iss => rfl
      | none =>
        cases pre with
        | nil =>
          simp only [List.nil_append, List.cons.injEq] at heq
          obtain ⟨rfl, rfl⟩ := heq
          have : (scanFrom en m rest).isSome = true :=
            (scanFrom_isSome en m rest).mpr ⟨n, hn, hor⟩
          rw [hscan] at this
          exact absurd this (by simp)
        | cons a pre' =>
          simp only [List.cons_append, List.cons.injEq] at heq
          exact ih.mpr ⟨pre', m', rest', heq.2, n, hn, hor⟩

/-- C7: constructing an element whose record holds two vendor models
sharing a name or an `mid` never aborts: the duplicate is logged, and the
`vendor_models` field is the full record list, duplicates included, in
record order. -/
theorem mkElement_duplicate_vendor_nonfatal
    (name : String) (location : Nat) (sig_models : List SIGModel)
    (vms : List VendorModel) (sources : List Source)
    (h : ∃ pre m rest, vms = pre ++ m :: rest ∧
      ∃ n ∈ rest, m.name = n.name ∨ m.mid = n.mid) :
    (mkElement name location sig_models vms sources).2.vendor_models = vms ∧
    ((mkElement name location sig_models vms sources).1).isSome = true :=
  ⟨rfl, (findDupIssue_isSome name vms).mpr h⟩

/-- Witness for C7 at a concrete record with two name-sharing vendor
models. -/
theorem mkElement_duplicate_vendor_nonfatal_witness :
    (mkElement "e" 0 [] [VendorModel.mk 1 0 "a", VendorModel.mk 2 1 "a"]
        []).2.vendor_models
      = [VendorModel.mk 1 0 "a", VendorModel.mk 2 1 "a"] ∧
    ((mkElement "e" 0 [] [VendorModel.mk 1 0 "a", VendorModel.mk 2 1 "a"]
        []).1).isSome = true :=
  mkElement_duplicate_vendor_nonfatal "e" 0 []
    [VendorModel.mk 1 0 "a", VendorModel.mk 2 1 "a"] []
    ⟨[], VendorModel.mk 1 0 "a", [VendorModel.mk 2 1 "a"], rfl,
      VendorModel.mk 2 1 "a", by decide, by decide⟩
